import Mathlib

/-!
Verification of the const-regex code generator (`src/lib.rs`).

The crate compiles a regex pattern, via the external `regex_automata` dense
DFA backend, into an explicit state graph and then emits an imperative byte
matcher.  This file embeds the state classification (`State::from_regex`),
the byte-range coalescing loop, the graph extraction (`Dfa::add_states` /
`Dfa::from_regex`), the shape of the emitted match expression
(`State::handle` / `Dfa::handle`) and its run-time semantics, together with
the `build_dfa` front end.  The external backend is represented by the
four-operation contract it exposes (start state, match/dead classification,
byte transition function).
-/

set_option maxRecDepth 2048

namespace ConstRegex

/-- The contract the code relies on from the external automaton backend
(`regex_automata`'s dense standard DFA): a start state, match/dead
classification of a state id, and a byte transition function.  State ids are
unsigned integers; bytes are naturals below 256. -/
structure RegexDfa where
  start_state : Nat
  is_match_state : Nat → Bool
  is_dead_state : Nat → Bool
  next_state : Nat → Nat → Nat

/-- Classification of one automaton state (`enum State` in `lib.rs`).
`Transitions` carries the `HashMap<usize, BTreeSet<u8>>` as an association
list from target state id to the list of bytes moving there; byte lists are
in ascending order because the probing loop runs bytes `0..=255` in order
(matching `BTreeSet` iteration order). -/
inductive State
  | Match : State
  | Dead : State
  | Transitions : List (Nat × List Nat) → State
deriving DecidableEq

/-- Association-list lookup by key (first matching entry wins). -/
def alookup {α : Type} : List (Nat × α) → Nat → Option α
  | [], _ => none
  | p :: rest, k => if p.1 = k then some p.2 else alookup rest k

/-- `HashMap::contains_key`. -/
def containsKey {α : Type} (l : List (Nat × α)) (k : Nat) : Bool :=
  (alookup l k).isSome

/-- One step of the probe loop body
`transitions.entry(next).or_insert_with(BTreeSet::new).insert(byte)`:
append `b` to the entry keyed `t`, creating the entry if absent.  Appending
preserves ascending order because bytes arrive in ascending order and each
byte is inserted exactly once. -/
def insertByte : List (Nat × List Nat) → Nat → Nat → List (Nat × List Nat)
  | [], t, b => [(t, [b])]
  | p :: rest, t, b =>
    if p.1 = t then (p.1, p.2 ++ [b]) :: rest else p :: insertByte rest t b

/-- The grouping loop of `State::from_regex` run over bytes `0..n`. -/
def buildUpTo (regex : RegexDfa) (s n : Nat) : List (Nat × List Nat) :=
  List.foldl (fun m b => insertByte m (regex.next_state s b) b) [] (List.range n)

/-- The `for byte in 0..=255` grouping loop of `State::from_regex`. -/
def buildTransitions (regex : RegexDfa) (s : Nat) : List (Nat × List Nat) :=
  buildUpTo regex s 256

/-- `State::from_regex`: classify a state id as Match, Dead, or by grouping
all 256 byte probes by their target state. -/
def State.from_regex (regex : RegexDfa) (s : Nat) : State :=
  if regex.is_match_state s then .Match
  else if regex.is_dead_state s then .Dead
  else .Transitions (buildTransitions regex s)

/-- The byte-range coalescing loop inside `State::handle`, after the first
byte has opened the range `(s, e)`: extend the open range while the next
byte is exactly one past its end, otherwise emit it and open a new range;
the final open range is flushed at the end. -/
def coalesceGo : List Nat → Nat → Nat → List (Nat × Nat)
  | [], s, e => [(s, e)]
  | b :: rest, s, e =>
    if e = b - 1 then coalesceGo rest s b else (s, e) :: coalesceGo rest b b

/-- Byte-range coalescing of a (sorted-ascending) byte list, as performed by
the loop in `State::handle` over a `BTreeSet`.  The empty list produces no
ranges (the `range` option is never set, so nothing is flushed). -/
def coalesce : List Nat → List (Nat × Nat)
  | [] => []
  | b :: rest => coalesceGo rest b b

/-- The distinct target state ids referenced by a classification. -/
def State.targets : State → List Nat
  | .Transitions ts => ts.map Prod.fst
  | _ => []

/-- `Dfa::add_states`, flattened into an explicit worklist (spec §9 notes
this re-architecture is behaviorally equivalent to the recursion in the
source): pop an id; if it is already a key of the map skip it (the
`!self.states.contains_key(target)` guard), otherwise classify it, insert
it, and push its transition targets.  `fuel` bounds the number of steps so
the definition is structurally recursive; sufficiency of a fuel linear in
the number of automaton states is proved below. -/
def addStatesAux (regex : RegexDfa) : Nat → List Nat → List (Nat × State) →
    Option (List (Nat × State))
  | 0, pending, states => if pending.isEmpty then some states else none
  | _ + 1, [], states => some states
  | fuel + 1, id :: pending, states =>
    if containsKey states id then addStatesAux regex fuel pending states
    else
      addStatesAux regex fuel ((State.from_regex regex id).targets ++ pending)
        (states ++ [(id, State.from_regex regex id)])

/-- The extracted state graph (`struct Dfa` in `lib.rs`). -/
structure Dfa where
  start : Nat
  states : List (Nat × State)
deriving DecidableEq

/-- `Dfa::from_regex`: start from `regex.start_state()` with an empty map
and add all reachable states. -/
def Dfa.from_regex (regex : RegexDfa) (fuel : Nat) : Option Dfa :=
  (addStatesAux regex fuel [regex.start_state] []).map
    fun sts => { start := regex.start_state, states := sts }

/-- A coalesced range as rendered by `range_to_tokens`: a single byte value
renders as a literal pattern, a wider range as `start..=end`. -/
inductive RangeTok
  | single : Nat → RangeTok
  | interval : Nat → Nat → RangeTok
deriving DecidableEq

/-- `range_to_tokens` in `lib.rs`. -/
def range_to_tokens (r : Nat × Nat) : RangeTok :=
  if r.1 = r.2 then .single r.1 else .interval r.1 r.2

/-- Run-time meaning of a rendered range pattern on a byte. -/
def RangeTok.covers : RangeTok → Nat → Bool
  | .single v, b => b == v
  | .interval lo hi, b => decide (lo ≤ b) && decide (b ≤ hi)

/-- Pattern of one arm of the emitted per-byte `match`: a `|`-list of range
patterns, or a wildcard `_`.  The source only ever emits range patterns in
this position; the wildcard constructor exists so that the presence or
absence of a catch-all arm is expressible. -/
inductive BytePat
  | ranges : List RangeTok → BytePat
  | wildcard : BytePat
deriving DecidableEq

def BytePat.covers : BytePat → Nat → Bool
  | .ranges rs, b => rs.any fun r => r.covers b
  | .wildcard, _ => true

/-- Result expression of one arm of the emitted per-byte `match`:
`return true`, `return false`, or the bare target state id (which the loop
assigns to `state`). -/
inductive ArmHandler
  | retTrue : ArmHandler
  | retFalse : ArmHandler
  | goto : Nat → ArmHandler
deriving DecidableEq

structure ByteArm where
  pat : BytePat
  handler : ArmHandler
deriving DecidableEq

/-- The `handler` choice in `State::handle`: `match states[target]`, with
Match and Dead inlined to immediate returns and anything else emitting the
bare target id.  The source indexes the map (which would panic at macro
expansion time on a dangling target); graph closure, proved below,
guarantees the target is present whenever the emitter runs. -/
def handlerFor (states : List (Nat × State)) (target : Nat) : ArmHandler :=
  match alookup states target with
  | some .Match => .retTrue
  | some .Dead => .retFalse
  | _ => .goto target

/-- The arm list emitted by `State::handle` for a `Transitions` map: one
arm per (target, byte set) entry, whose pattern is the coalesced range list
and whose handler inlines terminal targets.  No catch-all arm is emitted. -/
def emitByteArms (states : List (Nat × State)) (ts : List (Nat × List Nat)) :
    List ByteArm :=
  ts.map fun p =>
    { pat := .ranges ((coalesce p.2).map range_to_tokens)
      handler := handlerFor states p.1 }

/-- Body of one state arm of the outer dispatch in `Dfa::handle`:
an immediate return, the per-byte `match`, or the `[][0]` panic expression
of the outer catch-all arm. -/
inductive StateBody
  | retTrue : StateBody
  | retFalse : StateBody
  | byteMatch : List ByteArm → StateBody
  | panicIndex : StateBody
deriving DecidableEq

/-- `State::handle`: the branch body emitted for one state. -/
def State.handle (st : State) (states : List (Nat × State)) : StateBody :=
  match st with
  | .Match => .retTrue
  | .Dead => .retFalse
  | .Transitions ts => .byteMatch (emitByteArms states ts)

/-- Pattern of one arm of the outer state dispatch: a state id literal or
the wildcard of the `#[allow(unconditional_panic)] _ => [][0]` arm. -/
inductive StatePat
  | lit : Nat → StatePat
  | wildcard : StatePat
deriving DecidableEq

def StatePat.covers : StatePat → Nat → Bool
  | .lit v, id => v == id
  | .wildcard, _ => true

/-- The arm list of the outer `match state` in `Dfa::handle`: one arm per
entry of the states map, followed by the catch-all arm whose body is the
`[][0]` panic. -/
def Dfa.branches (dfa : Dfa) : List (StatePat × StateBody) :=
  (dfa.states.map fun p => (StatePat.lit p.1, State.handle p.2 dfa.states)) ++
    [(StatePat.wildcard, StateBody.panicIndex)]

/-- First outer arm whose pattern covers the current state id. -/
def evalOuter : List (StatePat × StateBody) → Nat → Option StateBody
  | [], _ => none
  | arm :: rest, id => if arm.1.covers id then some arm.2 else evalOuter rest id

/-- First byte arm whose pattern covers the current byte. -/
def evalArms : List ByteArm → Nat → Option ArmHandler
  | [], _ => none
  | arm :: rest, b => if arm.pat.covers b then some arm.handler else evalArms rest b

/-- Run-time semantics of the matcher emitted by `Dfa::handle`: the
`while i < input.len()` loop with `state = match state { ... }` inside.
`none` models an executed panic (`[][0]`, or a byte covered by no arm of a
per-byte `match`, which in Rust would already be a compile error); `some b`
models `return b`, and falling off the loop end returns `false`. -/
def matcherRun (dfa : Dfa) : Nat → List Nat → Option Bool
  | _, [] => some false
  | st, b :: rest =>
    match evalOuter dfa.branches st with
    | none => none
    | some .retTrue => some true
    | some .retFalse => some false
    | some .panicIndex => none
    | some (.byteMatch arms) =>
      match evalArms arms b with
      | none => none
      | some .retTrue => some true
      | some .retFalse => some false
      | some (.goto t) => matcherRun dfa t rest

/-- `Dfa::handle` as a runnable matcher: the loop starting in
`dfa.start`. -/
def Dfa.handle (dfa : Dfa) (input : List Nat) : Option Bool :=
  matcherRun dfa dfa.start input

/-- The loop of the emitted matcher consumes the whole input without any
early return: every step dispatches to a `Transitions` body and takes a
plain `goto` arm, so no `return true`, no `return false` and no panic path
is hit before the input is exhausted. -/
def matcherFallsThrough (dfa : Dfa) : Nat → List Nat → Bool
  | _, [] => true
  | st, b :: rest =>
    match evalOuter dfa.branches st with
    | some (.byteMatch arms) =>
      match evalArms arms b with
      | some (.goto t) => matcherFallsThrough dfa t rest
      | _ => false
    | _ => false

/-- Iterated byte transition of the backend automaton. -/
def runDfa (regex : RegexDfa) (s : Nat) (input : List Nat) : Nat :=
  List.foldl regex.next_state s input

/-- Modelled from the spec: the backing regex engine itself
(`regex_automata`, spec §1/§6 "external collaborator") is not part of this
repository.  Per the spec's backend contract, its boolean verdict on an
input is whether some prefix of the input (the empty prefix included) runs
from the start state to a match state; the dead-state fail-fast of the real
engine does not change this verdict because dead states are match-free
sinks. -/
def engineMatch (regex : RegexDfa) (input : List Nat) : Bool :=
  (List.range (input.length + 1)).any fun k =>
    regex.is_match_state (runDfa regex regex.start_state (input.take k))

/-- Straight-line recursive characterization of the emitted matcher's
control flow over the raw automaton: check the current state at the top of
each iteration, then check the byte's target inline (the one-hop inlining
of `State::handle`), and fall through to `false` on exhausted input. -/
def scanMatch (regex : RegexDfa) : Nat → List Nat → Bool
  | _, [] => false
  | s, b :: rest =>
    if regex.is_match_state s then true
    else if regex.is_dead_state s then false
    else
      if regex.is_match_state (regex.next_state s b) then true
      else if regex.is_dead_state (regex.next_state s b) then false
      else scanMatch regex (regex.next_state s b) rest

/-- `regex.strip_prefix('^')` in `build_dfa`: strip one leading caret and
report whether it was present. -/
def stripCaret : List Char → List Char × Bool
  | [] => ([], false)
  | c :: rest => if c = '^' then (rest, true) else (c :: rest, false)

/-- The builder options `build_dfa` fixes on the backend:
`byte_classes(false)`, `premultiply(false)`, `minimize(true)`,
`anchored(anchored)`, applied to the possibly caret-stripped pattern. -/
structure BuilderConfig where
  byte_classes : Bool
  premultiply : Bool
  minimize : Bool
  anchored : Bool
  pattern : List Char
deriving DecidableEq

/-- The backend configuration assembled by `build_dfa` for a pattern. -/
def build_dfa_config (regex : List Char) : BuilderConfig :=
  let p := stripCaret regex
  { byte_classes := false
    premultiply := false
    minimize := true
    anchored := p.2
    pattern := p.1 }

/-- The representation returned by the backend builder: the dense standard
table the code accepts, or any other `DenseDFA` variant. -/
inductive DenseDFA
  | Standard : RegexDfa → DenseDFA
  | NonStandard : DenseDFA

/-- Outcome of `build_dfa`: a DFA, or an aborted compilation carrying the
panic message (a panic in a proc macro aborts the call site's build). -/
inductive BuildResult
  | ok : RegexDfa → BuildResult
  | panicked : List Char → BuildResult

/-- Message prefix of the `.unwrap()` panic on a builder error; the error's
own text follows it verbatim. -/
def unwrapPre : List Char :=
  "called `Result::unwrap()` on an `Err` value: ".toList

/-- The fixed message of the `unreachable!()` arm taken when the backend
returns a non-`Standard` representation. -/
def unreachableMsg : List Char :=
  "internal error: entered unreachable code".toList

/-- `build_dfa`: strip the anchor, configure and invoke the backend builder
(passed in as the external collaborator), `.unwrap()` the result, and
accept only the `DenseDFA::Standard` representation. -/
def build_dfa (backend : BuilderConfig → Except (List Char) DenseDFA)
    (regex : List Char) : BuildResult :=
  match backend (build_dfa_config regex) with
  | .error e => .panicked (unwrapPre ++ e)
  | .ok (.Standard d) => .ok d
  | .ok .NonStandard => .panicked unreachableMsg

/-- State ids reachable from the start state through the extracted
transition maps (targets of `Transitions` classifications only; Match and
Dead states are not expanded, exactly as in `Dfa::add_states`). -/
inductive Reachable (regex : RegexDfa) : Nat → Prop
  | start : Reachable regex regex.start_state
  | step {s t : Nat} : Reachable regex s →
      t ∈ (State.from_regex regex s).targets → Reachable regex t

/-- Modelled from the spec: the minimized backend automaton for the
single-character pattern `"a"` in the default unanchored mode (spec §8
scenario 5).  State 0 scans for byte `'a'` (0x61) with a self-loop on every
other byte; state 1 is the accepting sink. -/
def aRegex : RegexDfa where
  start_state := 0
  is_match_state := fun s => s == 1
  is_dead_state := fun _ => false
  next_state := fun s b => if s == 0 then (if b == 97 then 1 else 0) else 1

/-- The extracted state graph of `aRegex` (fuel 4 suffices: visit 0, skip
the self-loop, visit 1, drain). -/
def aGraph : Dfa :=
  (Dfa.from_regex aRegex 4).getD { start := 0, states := [] }

/-- The byte arms emitted for state 0 of `aGraph`. -/
def aGraphArms : List ByteArm :=
  emitByteArms aGraph.states (buildTransitions aRegex 0)

/-- Modelled from the spec: a backend automaton whose regex accepts the
empty string (e.g. pattern `"a*"`), so its start state is a match state. -/
def epsRegex : RegexDfa where
  start_state := 0
  is_match_state := fun _ => true
  is_dead_state := fun _ => false
  next_state := fun _ _ => 0

/-- The extracted state graph of `epsRegex`: the single match state. -/
def epsGraph : Dfa :=
  (Dfa.from_regex epsRegex 2).getD { start := 0, states := [] }


/-! ### Correctness of the range coalescer -/

theorem chain_of_sorted : ∀ {rest : List Nat} {b : Nat},
    List.Sorted (· < ·) (b :: rest) → List.Chain (· < ·) b rest := by
  intro rest
  induction rest with
  | nil => intro b _; exact List.Chain.nil
  | cons c l ih =>
    intro b h
    rw [List.sorted_cons] at h
    exact List.Chain.cons (h.1 c (by simp)) (ih h.2)

theorem coalesceGo_spec (l : List Nat) : ∀ s e : Nat, s ≤ e → List.Chain (· < ·) e l →
    coalesceGo l s e ≠ [] ∧
    (∀ r ∈ coalesceGo l s e, r.1 ≤ r.2 ∧ s ≤ r.1) ∧
    List.Pairwise (fun r1 r2 : Nat × Nat => r1.2 + 1 < r2.1) (coalesceGo l s e) ∧
    (∀ b : Nat, (∃ r ∈ coalesceGo l s e, r.1 ≤ b ∧ b ≤ r.2) ↔ (s ≤ b ∧ b ≤ e ∨ b ∈ l)) := by
  induction l with
  | nil =>
    intro s e hse _
    refine ⟨by simp [coalesceGo], ?_, ?_, ?_⟩
    · intro r hr
      simp only [coalesceGo, List.mem_singleton] at hr
      subst hr
      exact ⟨hse, le_rfl⟩
    · simp [coalesceGo]
    · intro b
      simp [coalesceGo]
  | cons b rest ih =>
    intro s e hse hch
    rw [List.chain_cons] at hch
    obtain ⟨heb, hch⟩ := hch
    by_cases hcase : e = b - 1
    · have hb : b = e + 1 := by omega
      have heq : coalesceGo (b :: rest) s e = coalesceGo rest s b := by
        simp only [coalesceGo, if_pos hcase]
      have h := ih s b (by omega) hch
      rw [heq]
      refine ⟨h.1, h.2.1, h.2.2.1, ?_⟩
      intro x
      rw [h.2.2.2 x]
      simp only [List.mem_cons]
      constructor
      · rintro (⟨h1, h2⟩ | hx)
        · by_cases hxe : x ≤ e
          · exact Or.inl ⟨h1, hxe⟩
          · exact Or.inr (Or.inl (by omega))
        · exact Or.inr (Or.inr hx)
      · rintro (⟨h1, h2⟩ | rfl | hx)
        · exact Or.inl ⟨h1, by omega⟩
        · exact Or.inl ⟨by omega, le_rfl⟩
        · exact Or.inr hx
    · have hb2 : e + 1 < b := by omega
      have heq : coalesceGo (b :: rest) s e = (s, e) :: coalesceGo rest b b := by
        simp only [coalesceGo, if_neg hcase]
      have h := ih b b le_rfl hch
      rw [heq]
      refine ⟨by simp, ?_, ?_, ?_⟩
      · rintro r hr
        rcases List.mem_cons.mp hr with hr | hr
        · subst hr; exact ⟨hse, le_rfl⟩
        · have h1 := h.2.1 r hr
          exact ⟨h1.1, by omega⟩
      · rw [List.pairwise_cons]
        refine ⟨?_, h.2.2.1⟩
        intro r hr
        have h1 := h.2.1 r hr
        simp only []
        omega
      · intro x
        simp only [List.mem_cons]
        constructor
        · rintro ⟨r, hr | hr, hx1, hx2⟩
          · subst hr; exact Or.inl ⟨hx1, hx2⟩
          · have := (h.2.2.2 x).mp ⟨r, hr, hx1, hx2⟩
            rcases this with ⟨hbx, hxb⟩ | hx
            · exact Or.inr (Or.inl (by omega))
            · exact Or.inr (Or.inr hx)
        · rintro (⟨h1, h2⟩ | rfl | hx)
          · exact ⟨(s, e), Or.inl rfl, h1, h2⟩
          · obtain ⟨r, hr, hx1, hx2⟩ := (h.2.2.2 x).mpr (Or.inl ⟨le_rfl, le_rfl⟩)
            exact ⟨r, Or.inr hr, hx1, hx2⟩
          · obtain ⟨r, hr, hx1, hx2⟩ := (h.2.2.2 x).mpr (Or.inr hx)
            exact ⟨r, Or.inr hr, hx1, hx2⟩

theorem coalesce_spec (l : List Nat) (hne : l ≠ []) (hs : List.Sorted (· < ·) l) :
    coalesce l ≠ [] ∧
    (∀ r ∈ coalesce l, r.1 ≤ r.2) ∧
    List.Pairwise (fun r1 r2 : Nat × Nat => r1.2 + 1 < r2.1) (coalesce l) ∧
    (∀ b : Nat, (∃ r ∈ coalesce l, r.1 ≤ b ∧ b ≤ r.2) ↔ b ∈ l) := by
  match l, hne with
  | b :: rest, _ =>
    have hch : List.Chain (· < ·) b rest := chain_of_sorted hs
    have h := coalesceGo_spec rest b b le_rfl hch
    simp only [coalesce]
    refine ⟨h.1, fun r hr => (h.2.1 r hr).1, h.2.2.1, ?_⟩
    intro x
    rw [h.2.2.2 x]
    simp only [List.mem_cons]
    constructor
    · rintro (⟨h1, h2⟩ | hx)
      · exact Or.inl (by omega)
      · exact Or.inr hx
    · rintro (rfl | hx)
      · exact Or.inl ⟨le_rfl, le_rfl⟩
      · exact Or.inr hx

theorem coalesce_mem_of_sorted (l : List Nat) (hs : List.Sorted (· < ·) l) (b : Nat) :
    (∃ r ∈ coalesce l, r.1 ≤ b ∧ b ≤ r.2) ↔ b ∈ l := by
  match l with
  | [] => simp [coalesce]
  | c :: rest => exact (coalesce_spec (c :: rest) (by simp) hs).2.2.2 b

/-! ### Invariants of the transition-map construction -/

theorem alookup_insertByte_self (m : List (Nat × List Nat)) (t b : Nat) :
    alookup (insertByte m t b) t = some ((alookup m t).getD [] ++ [b]) := by
  induction m with
  | nil => simp [insertByte, alookup]
  | cons p rest ih =>
    by_cases h : p.1 = t
    · simp [insertByte, alookup, h]
    · simp [insertByte, alookup, h, ih]

theorem alookup_insertByte_ne (m : List (Nat × List Nat)) (t b t' : Nat) (h : t' ≠ t) :
    alookup (insertByte m t b) t' = alookup m t' := by
  induction m with
  | nil =>
    simp only [insertByte, alookup]
    rw [if_neg (fun hh => h hh.symm)]
  | cons p rest ih =>
    simp only [insertByte]
    by_cases hp : p.1 = t
    · rw [if_pos hp]
      simp only [alookup]
      rw [if_neg (hp ▸ fun hh => h hh.symm), if_neg (hp ▸ fun hh => h hh.symm)]
    · rw [if_neg hp]
      simp only [alookup]
      by_cases hp' : p.1 = t'
      · rw [if_pos hp', if_pos hp']
      · rw [if_neg hp', if_neg hp', ih]

theorem alookup_isSome_iff {α : Type} (m : List (Nat × α)) (k : Nat) :
    (alookup m k).isSome = true ↔ k ∈ m.map Prod.fst := by
  induction m with
  | nil => simp [alookup]
  | cons p rest ih =>
    simp only [alookup, List.map_cons, List.mem_cons]
    by_cases h : p.1 = k
    · simp [h]
    · rw [if_neg h, ih]
      constructor
      · exact Or.inr
      · rintro (hh | hh)
        · exact absurd hh.symm h
        · exact hh

theorem keys_insertByte (m : List (Nat × List Nat)) (t b : Nat) :
    (insertByte m t b).map Prod.fst =
      if containsKey m t then m.map Prod.fst else m.map Prod.fst ++ [t] := by
  induction m with
  | nil => simp [insertByte, containsKey, alookup]
  | cons p rest ih =>
    by_cases h : p.1 = t
    · simp [insertByte, containsKey, alookup, h]
    · simp only [insertByte, if_neg h, List.map_cons, containsKey, alookup, h, if_false]
      rw [show (alookup rest t).isSome = containsKey rest t from rfl]
      by_cases hc : containsKey rest t = true
      · simp [hc] at ih ⊢
        exact ih
      · simp only [Bool.not_eq_true] at hc
        simp [hc] at ih ⊢
        exact ih

theorem length_insertByte (m : List (Nat × List Nat)) (t b : Nat) :
    (insertByte m t b).length ≤ m.length + 1 := by
  induction m with
  | nil => simp [insertByte]
  | cons p rest ih =>
    by_cases h : p.1 = t
    · simp [insertByte, h]
    · simp only [insertByte, if_neg h, List.length_cons]
      omega

theorem alookup_mem {α : Type} (m : List (Nat × α)) (k : Nat) (v : α)
    (h : alookup m k = some v) : (k, v) ∈ m := by
  induction m with
  | nil => simp [alookup] at h
  | cons p rest ih =>
    obtain ⟨a, w⟩ := p
    by_cases hp : a = k
    · subst hp
      rw [show alookup ((a, w) :: rest) a = some w from by simp [alookup]] at h
      cases h
      exact List.mem_cons_self _ _
    · simp only [alookup] at h
      rw [if_neg hp] at h
      exact List.mem_cons_of_mem _ (ih h)

theorem mem_alookup {α : Type} (m : List (Nat × α)) (k : Nat) (v : α)
    (hnd : (m.map Prod.fst).Nodup) (h : (k, v) ∈ m) : alookup m k = some v := by
  induction m with
  | nil => simp at h
  | cons p rest ih =>
    simp only [List.map_cons, List.nodup_cons] at hnd
    rcases List.mem_cons.mp h with h | h
    · subst h
      simp [alookup]
    · have hk : p.1 ≠ k := by
        intro hh
        exact hnd.1 (hh ▸ (List.mem_map.mpr ⟨(k, v), h, rfl⟩))
      simp only [alookup, if_neg hk]
      exact ih hnd.2 h

theorem buildUpTo_zero (regex : RegexDfa) (s : Nat) : buildUpTo regex s 0 = [] := rfl

theorem buildUpTo_succ (regex : RegexDfa) (s n : Nat) :
    buildUpTo regex s (n + 1) =
      insertByte (buildUpTo regex s n) (regex.next_state s n) n := by
  simp [buildUpTo, List.range_succ]

theorem buildUpTo_length (regex : RegexDfa) (s : Nat) :
    ∀ n, (buildUpTo regex s n).length ≤ n := by
  intro n
  induction n with
  | zero => simp [buildUpTo_zero]
  | succ n ih =>
    rw [buildUpTo_succ]
    calc (insertByte (buildUpTo regex s n) (regex.next_state s n) n).length
        ≤ (buildUpTo regex s n).length + 1 := length_insertByte _ _ _
      _ ≤ n + 1 := by omega

theorem buildUpTo_spec (regex : RegexDfa) (s : Nat) :
    ∀ n, ((buildUpTo regex s n).map Prod.fst).Nodup ∧
      (∀ t bs, alookup (buildUpTo regex s n) t = some bs →
        bs ≠ [] ∧ List.Sorted (· < ·) bs ∧ ∀ b ∈ bs, b < n ∧ regex.next_state s b = t) ∧
      (∀ b, b < n →
        ∃ bs, alookup (buildUpTo regex s n) (regex.next_state s b) = some bs ∧ b ∈ bs) := by
  intro n
  induction n with
  | zero =>
    refine ⟨by simp [buildUpTo_zero], ?_, ?_⟩
    · intro t bs h
      simp [buildUpTo_zero, alookup] at h
    · intro b hb
      omega
  | succ n ih =>
    obtain ⟨ihnd, ihent, ihtot⟩ := ih
    rw [buildUpTo_succ]
    refine ⟨?_, ?_, ?_⟩
    · rw [keys_insertByte]
      by_cases hc : containsKey (buildUpTo regex s n) (regex.next_state s n) = true
      · simp [hc, ihnd]
      · simp only [Bool.not_eq_true] at hc
        simp only [hc, Bool.false_eq_true, if_false]
        rw [List.nodup_append]
        refine ⟨ihnd, by simp, ?_⟩
        intro a ha hmem
        simp only [List.mem_singleton] at hmem
        subst hmem
        have := (alookup_isSome_iff _ _).mpr ha
        simp [containsKey] at hc
        rw [hc] at this
        simp at this
    · intro t bs h
      by_cases ht : t = regex.next_state s n
      · subst ht
        rw [alookup_insertByte_self] at h
        cases h
        cases hlk : alookup (buildUpTo regex s n) (regex.next_state s n) with
        | none =>
          refine ⟨by simp, by simp, ?_⟩
          intro b hb
          simp at hb
          subst hb
          exact ⟨by omega, rfl⟩
        | some bs0 =>
          obtain ⟨hne0, hsort0, hmem0⟩ := ihent _ _ hlk
          refine ⟨by simp, ?_, ?_⟩
          · simp only [Option.getD_some]
            rw [List.Sorted, List.pairwise_append]
            refine ⟨hsort0, by simp, ?_⟩
            intro x hx y hy
            simp only [List.mem_singleton] at hy
            subst hy
            exact (hmem0 x hx).1
          · intro b hb
            simp only [Option.getD_some, List.mem_append, List.mem_singleton] at hb
            rcases hb with hb | hb
            · have := hmem0 b hb
              exact ⟨by omega, this.2⟩
            · subst hb
              exact ⟨by omega, rfl⟩
      · rw [alookup_insertByte_ne _ _ _ _ ht] at h
        obtain ⟨hne0, hsort0, hmem0⟩ := ihent _ _ h
        refine ⟨hne0, hsort0, ?_⟩
        intro b hb
        have := hmem0 b hb
        exact ⟨by omega, this.2⟩
    · intro b hb
      by_cases hbn : b = n
      · subst hbn
        refine ⟨(alookup (buildUpTo regex s b) (regex.next_state s b)).getD [] ++ [b],
          alookup_insertByte_self _ _ _, by simp⟩
      · have hb' : b < n := by omega
        obtain ⟨bs, hlk, hmem⟩ := ihtot b hb'
        by_cases hk : regex.next_state s b = regex.next_state s n
        · rw [hk]
          refine ⟨(alookup (buildUpTo regex s n) (regex.next_state s n)).getD [] ++ [n],
            alookup_insertByte_self _ _ _, ?_⟩
          rw [← hk, hlk]
          simp [hmem]
        · rw [alookup_insertByte_ne _ _ _ _ hk]
          exact ⟨bs, hlk, hmem⟩

theorem from_regex_match_iff (regex : RegexDfa) (s : Nat) :
    State.from_regex regex s = .Match ↔ regex.is_match_state s = true := by
  unfold State.from_regex
  split
  · simp_all
  · split <;> simp_all

theorem from_regex_dead_iff (regex : RegexDfa) (s : Nat) :
    State.from_regex regex s = .Dead ↔
      regex.is_match_state s = false ∧ regex.is_dead_state s = true := by
  unfold State.from_regex
  split
  · simp_all
  · split <;> simp_all

theorem from_regex_transitions (regex : RegexDfa) (s : Nat) (ts : List (Nat × List Nat))
    (h : State.from_regex regex s = .Transitions ts) :
    regex.is_match_state s = false ∧ regex.is_dead_state s = false ∧
      ts = buildTransitions regex s := by
  unfold State.from_regex at h
  split at h
  · simp_all
  · split at h <;> simp_all


/-! ### Invariants of the state-graph extraction -/

theorem alookup_append {α : Type} (l1 l2 : List (Nat × α)) (k : Nat) :
    alookup (l1 ++ l2) k =
      match alookup l1 k with
      | some v => some v
      | none => alookup l2 k := by
  induction l1 with
  | nil => simp [alookup]
  | cons p rest ih =>
    by_cases h : p.1 = k
    · simp [alookup, h]
    · simp only [List.cons_append, alookup, if_neg h]
      exact ih

theorem containsKey_append {α : Type} (l1 l2 : List (Nat × α)) (k : Nat) :
    containsKey (l1 ++ l2) k = (containsKey l1 k || containsKey l2 k) := by
  simp only [containsKey, alookup_append]
  cases alookup l1 k <;> simp

theorem containsKey_singleton {α : Type} (k id : Nat) (st : α) :
    containsKey [(id, st)] k = (id == k) := by
  by_cases h : id = k <;> simp [containsKey, alookup, h]

theorem buildTransitions_spec (regex : RegexDfa) (s : Nat) :
    ((buildTransitions regex s).map Prod.fst).Nodup ∧
      (∀ t bs, alookup (buildTransitions regex s) t = some bs →
        bs ≠ [] ∧ List.Sorted (· < ·) bs ∧ ∀ b ∈ bs, b < 256 ∧ regex.next_state s b = t) ∧
      (∀ b, b < 256 →
        ∃ bs, alookup (buildTransitions regex s) (regex.next_state s b) = some bs ∧
          b ∈ bs) := by
  unfold buildTransitions
  exact buildUpTo_spec regex s 256

theorem targets_from_regex (regex : RegexDfa) (s : Nat) :
    ∀ t ∈ (State.from_regex regex s).targets, ∃ b, b < 256 ∧ regex.next_state s b = t := by
  intro t ht
  unfold State.from_regex at ht
  split at ht
  · simp [State.targets] at ht
  · split at ht
    · simp [State.targets] at ht
    · simp only [State.targets] at ht
      have hs := (alookup_isSome_iff (buildTransitions regex s) t).mpr ht
      cases hlk : alookup (buildTransitions regex s) t with
      | none => rw [hlk] at hs; simp at hs
      | some bs =>
        obtain ⟨hne, _, hmem⟩ := (buildTransitions_spec regex s).2.1 t bs hlk
        obtain ⟨b, hb⟩ := List.exists_mem_of_ne_nil bs hne
        have hbp := hmem b hb
        exact ⟨b, hbp.1, hbp.2⟩

theorem targets_length (regex : RegexDfa) (s : Nat) :
    (State.from_regex regex s).targets.length ≤ 256 := by
  unfold State.from_regex
  split
  · simp [State.targets]
  · split
    · simp [State.targets]
    · simp only [State.targets, List.length_map]
      have h := buildUpTo_length regex s 256
      unfold buildTransitions
      exact h

theorem nodup_lt_length_le (l : List Nat) (n : Nat) (hnd : l.Nodup)
    (hlt : ∀ x ∈ l, x < n) : l.length ≤ n := by
  have h1 : l.toFinset.card = l.length := List.toFinset_card_of_nodup hnd
  have h2 : l.toFinset ⊆ Finset.range n := by
    intro x hx
    rw [List.mem_toFinset] at hx
    rw [Finset.mem_range]
    exact hlt x hx
  have := Finset.card_le_card h2
  rw [Finset.card_range] at this
  omega

theorem addStates_values (regex : RegexDfa) :
    ∀ fuel pending states out,
      addStatesAux regex fuel pending states = some out →
      (∀ p ∈ states, p.2 = State.from_regex regex p.1) →
      ∀ p ∈ out, p.2 = State.from_regex regex p.1 := by
  intro fuel
  induction fuel with
  | zero =>
    intro pending states out h hv
    simp only [addStatesAux] at h
    split at h
    · cases h; exact hv
    · cases h
  | succ fuel ih =>
    intro pending states out h hv
    match pending with
    | [] =>
      simp only [addStatesAux] at h
      cases h
      exact hv
    | id :: pending' =>
      simp only [addStatesAux] at h
      split at h
      · exact ih _ _ _ h hv
      · refine ih _ _ _ h ?_
        intro p hp
        rcases List.mem_append.mp hp with hp | hp
        · exact hv p hp
        · simp only [List.mem_singleton] at hp
          subst hp
          rfl

theorem addStates_mono (regex : RegexDfa) :
    ∀ fuel pending states out,
      addStatesAux regex fuel pending states = some out →
      ∀ k, containsKey states k = true → containsKey out k = true := by
  intro fuel
  induction fuel with
  | zero =>
    intro pending states out h k hk
    simp only [addStatesAux] at h
    split at h
    · cases h; exact hk
    · cases h
  | succ fuel ih =>
    intro pending states out h k hk
    match pending with
    | [] =>
      simp only [addStatesAux] at h
      cases h
      exact hk
    | id :: pending' =>
      simp only [addStatesAux] at h
      split at h
      · exact ih _ _ _ h k hk
      · refine ih _ _ _ h k ?_
        rw [containsKey_append, hk]
        simp

theorem addStates_nodup (regex : RegexDfa) :
    ∀ fuel pending states out,
      addStatesAux regex fuel pending states = some out →
      ((states.map Prod.fst).Nodup) →
      (out.map Prod.fst).Nodup := by
  intro fuel
  induction fuel with
  | zero =>
    intro pending states out h hnd
    simp only [addStatesAux] at h
    split at h
    · cases h; exact hnd
    · cases h
  | succ fuel ih =>
    intro pending states out h hnd
    match pending with
    | [] =>
      simp only [addStatesAux] at h
      cases h
      exact hnd
    | id :: pending' =>
      simp only [addStatesAux] at h
      split at h
      · exact ih _ _ _ h hnd
      · rename_i hck
        refine ih _ _ _ h ?_
        rw [List.map_append, List.nodup_append]
        refine ⟨hnd, by simp, ?_⟩
        intro a ha hmem
        simp only [List.map_cons, List.map_nil, List.mem_singleton] at hmem
        subst hmem
        rw [show containsKey states a = true from
          (alookup_isSome_iff states a).mpr ha] at hck
        simp at hck

theorem addStates_pending_keys (regex : RegexDfa) :
    ∀ fuel pending states out,
      addStatesAux regex fuel pending states = some out →
      ∀ id ∈ pending, containsKey out id = true := by
  intro fuel
  induction fuel with
  | zero =>
    intro pending states out h id hid
    simp only [addStatesAux] at h
    split at h
    · rename_i he
      rw [List.isEmpty_iff] at he
      subst he
      simp at hid
    · cases h
  | succ fuel ih =>
    intro pending states out h id hid
    match pending with
    | [] => simp at hid
    | top :: pending' =>
      simp only [addStatesAux] at h
      rcases List.mem_cons.mp hid with hid | hid
      · subst hid
        split at h
        · rename_i hck
          exact addStates_mono regex _ _ _ _ h id hck
        · refine addStates_mono regex _ _ _ _ h id ?_
          rw [containsKey_append, containsKey_singleton]
          simp
      · split at h
        · exact ih _ _ _ h id hid
        · exact ih _ _ _ h id (List.mem_append.mpr (Or.inr hid))

theorem addStates_closed (regex : RegexDfa) :
    ∀ fuel pending states out,
      addStatesAux regex fuel pending states = some out →
      (∀ p ∈ states, ∀ t ∈ State.targets p.2,
        containsKey states t = true ∨ t ∈ pending) →
      ∀ p ∈ out, ∀ t ∈ State.targets p.2, containsKey out t = true := by
  intro fuel
  induction fuel with
  | zero =>
    intro pending states out h hcl
    simp only [addStatesAux] at h
    split at h
    · rename_i he
      cases h
      rw [List.isEmpty_iff] at he
      subst he
      intro p hp t ht
      rcases hcl p hp t ht with hc | hc
      · exact hc
      · simp at hc
    · cases h
  | succ fuel ih =>
    intro pending states out h hcl
    match pending with
    | [] =>
      simp only [addStatesAux] at h
      cases h
      intro p hp t ht
      rcases hcl p hp t ht with hc | hc
      · exact hc
      · simp at hc
    | id :: pending' =>
      simp only [addStatesAux] at h
      split at h
      · rename_i hck
        refine ih _ _ _ h ?_
        intro p hp t ht
        rcases hcl p hp t ht with hc | hc
        · exact Or.inl hc
        · rcases List.mem_cons.mp hc with hc | hc
          · subst hc
            exact Or.inl hck
          · exact Or.inr hc
      · refine ih _ _ _ h ?_
        intro p hp t ht
        rcases List.mem_append.mp hp with hp | hp
        · rcases hcl p hp t ht with hc | hc
          · refine Or.inl ?_
            rw [containsKey_append, hc]
            simp
          · rcases List.mem_cons.mp hc with hc | hc
            · subst hc
              refine Or.inl ?_
              rw [containsKey_append, containsKey_singleton]
              simp
            · exact Or.inr (List.mem_append.mpr (Or.inr hc))
        · simp only [List.mem_singleton] at hp
          subst hp
          exact Or.inr (List.mem_append.mpr (Or.inl ht))

theorem addStates_some (regex : RegexDfa) (n : Nat)
    (hnext : ∀ s, s < n → ∀ b, b < 256 → regex.next_state s b < n) :
    ∀ fuel pending states,
      (∀ id ∈ pending, id < n) →
      (∀ p ∈ states, p.1 < n) →
      ((states.map Prod.fst).Nodup) →
      pending.length + 257 * (n - (states.map Prod.fst).length) ≤ fuel →
      (addStatesAux regex fuel pending states).isSome = true := by
  intro fuel
  induction fuel with
  | zero =>
    intro pending states _ _ _ hlen
    have : pending.length = 0 := by omega
    rw [List.length_eq_zero] at this
    subst this
    simp [addStatesAux]
  | succ fuel ih =>
    intro pending states hplt hslt hnd hlen
    match pending with
    | [] => simp [addStatesAux]
    | id :: pending' =>
      simp only [addStatesAux]
      split
      · refine ih pending' states (fun i hi => hplt i (List.mem_cons_of_mem _ hi))
          hslt hnd ?_
        simp only [List.length_cons] at hlen
        omega
      · rename_i hck
        have hid : id < n := hplt id (List.mem_cons_self _ _)
        have hidk : id ∉ states.map Prod.fst := by
          intro hmem
          rw [show containsKey states id = true from
            (alookup_isSome_iff states id).mpr hmem] at hck
          simp at hck
        have hklt : ∀ k ∈ states.map Prod.fst, k < n := by
          intro k hk
          obtain ⟨p, hp, hpk⟩ := List.mem_map.mp hk
          exact hpk ▸ hslt p hp
        have hkb : (states.map Prod.fst).length + 1 ≤ n := by
          have : ((states.map Prod.fst) ++ [id]).Nodup := by
            rw [List.nodup_append]
            refine ⟨hnd, by simp, ?_⟩
            intro a ha hb
            rw [List.mem_singleton] at hb
            subst hb
            exact hidk ha
          have hb := nodup_lt_length_le _ n this ?_
          · simpa using hb
          · intro x hx
            rcases List.mem_append.mp hx with hx | hx
            · exact hklt x hx
            · simp only [List.mem_singleton] at hx
              subst hx
              exact hid
        refine ih _ _ ?_ ?_ ?_ ?_
        · intro i hi
          rcases List.mem_append.mp hi with hi | hi
          · obtain ⟨b, hb, hbt⟩ := targets_from_regex regex id i hi
            exact hbt ▸ hnext id hid b hb
          · exact hplt i (List.mem_cons_of_mem _ hi)
        · intro p hp
          rcases List.mem_append.mp hp with hp | hp
          · exact hslt p hp
          · simp only [List.mem_singleton] at hp
            subst hp
            exact hid
        · rw [List.map_append, List.nodup_append]
          refine ⟨hnd, by simp, ?_⟩
          intro a ha hb
          simp only [List.map_cons, List.map_nil, List.mem_singleton] at hb
          subst hb
          exact hidk ha
        · have ht256 := targets_length regex id
          have h1 : ((State.from_regex regex id).targets ++ pending').length =
              (State.from_regex regex id).targets.length + pending'.length :=
            List.length_append _ _
          have h2 : ((states ++ [(id, State.from_regex regex id)]).map Prod.fst).length =
              (states.map Prod.fst).length + 1 := by
            rw [List.map_append]
            simp
          rw [h1, h2]
          simp only [List.length_cons] at hlen
          omega

theorem addStates_keys_reachable (regex : RegexDfa) :
    ∀ fuel pending states out,
      addStatesAux regex fuel pending states = some out →
      (∀ id ∈ pending, Reachable regex id) →
      (∀ p ∈ states, Reachable regex p.1) →
      ∀ p ∈ out, Reachable regex p.1 := by
  intro fuel
  induction fuel with
  | zero =>
    intro pending states out h _ hs
    simp only [addStatesAux] at h
    split at h
    · cases h; exact hs
    · cases h
  | succ fuel ih =>
    intro pending states out h hp hs
    match pending with
    | [] =>
      simp only [addStatesAux] at h
      cases h
      exact hs
    | id :: pending' =>
      simp only [addStatesAux] at h
      split at h
      · exact ih _ _ _ h (fun i hi => hp i (List.mem_cons_of_mem _ hi)) hs
      · have hidr : Reachable regex id := hp id (List.mem_cons_self _ _)
        refine ih _ _ _ h ?_ ?_
        · intro i hi
          rcases List.mem_append.mp hi with hi | hi
          · exact Reachable.step hidr hi
          · exact hp i (List.mem_cons_of_mem _ hi)
        · intro p hpm
          rcases List.mem_append.mp hpm with hpm | hpm
          · exact hs p hpm
          · simp only [List.mem_singleton] at hpm
            subst hpm
            exact hidr

theorem reachable_keys (regex : RegexDfa) (out : List (Nat × State))
    (hstart : containsKey out regex.start_state = true)
    (hval : ∀ p ∈ out, p.2 = State.from_regex regex p.1)
    (hcl : ∀ p ∈ out, ∀ t ∈ State.targets p.2, containsKey out t = true) :
    ∀ id, Reachable regex id → containsKey out id = true := by
  intro id hr
  induction hr with
  | start => exact hstart
  | step hr ht ih =>
    rename_i s t
    cases hlk : alookup out s with
    | none =>
      rw [containsKey, hlk] at ih
      simp at ih
    | some v =>
      have hmem := alookup_mem out s v hlk
      have hv := hval _ hmem
      refine hcl _ hmem t ?_
      rw [hv]
      exact ht

theorem from_regex_some (regex : RegexDfa) (fuel : Nat) (dfa : Dfa)
    (h : Dfa.from_regex regex fuel = some dfa) :
    dfa.start = regex.start_state ∧
      addStatesAux regex fuel [regex.start_state] [] = some dfa.states := by
  unfold Dfa.from_regex at h
  cases hlk : addStatesAux regex fuel [regex.start_state] [] with
  | none => rw [hlk] at h; cases h
  | some sts =>
    rw [hlk] at h
    rw [show (some sts).map (fun sts => ({ start := regex.start_state, states := sts } : Dfa)) =
      some { start := regex.start_state, states := sts } from rfl] at h
    cases h
    exact ⟨rfl, rfl⟩

/-! ### Semantics of the emitted match arms -/

theorem range_to_tokens_covers (r : Nat × Nat) (_hw : r.1 ≤ r.2) (b : Nat) :
    (range_to_tokens r).covers b = true ↔ r.1 ≤ b ∧ b ≤ r.2 := by
  unfold range_to_tokens
  by_cases h : r.1 = r.2
  · rw [if_pos h]
    simp only [RangeTok.covers, beq_iff_eq]
    omega
  · rw [if_neg h]
    simp only [RangeTok.covers, Bool.and_eq_true, decide_eq_true_eq]

theorem bytepat_ranges_covers (l : List Nat) (hs : List.Sorted (· < ·) l)
    (hne : l ≠ []) (b : Nat) :
    (BytePat.ranges ((coalesce l).map range_to_tokens)).covers b = true ↔ b ∈ l := by
  obtain ⟨_, hwf, _, hun⟩ := coalesce_spec l hne hs
  simp only [BytePat.covers, List.any_eq_true]
  rw [← hun b]
  constructor
  · rintro ⟨tok, htok, hcov⟩
    obtain ⟨r, hr, rfl⟩ := List.mem_map.mp htok
    exact ⟨r, hr, (range_to_tokens_covers r (hwf r hr) b).mp hcov⟩
  · rintro ⟨r, hr, hrb⟩
    exact ⟨range_to_tokens r, List.mem_map.mpr ⟨r, hr, rfl⟩,
      (range_to_tokens_covers r (hwf r hr) b).mpr hrb⟩

theorem evalArms_emit_aux (states : List (Nat × State)) (b t' : Nat) :
    ∀ ts : List (Nat × List Nat),
      (∀ p ∈ ts,
        ((BytePat.ranges ((coalesce p.2).map range_to_tokens)).covers b = true ↔
          p.1 = t')) →
      (∃ p ∈ ts, p.1 = t') →
      evalArms (emitByteArms states ts) b = some (handlerFor states t') := by
  intro ts
  induction ts with
  | nil =>
    rintro _ ⟨p, hp, _⟩
    simp at hp
  | cons p rest ih =>
    intro hcov hex
    simp only [emitByteArms, List.map_cons, evalArms]
    by_cases hc : (BytePat.ranges ((coalesce p.2).map range_to_tokens)).covers b = true
    · rw [if_pos hc]
      rw [(hcov p (List.mem_cons_self _ _)).mp hc]
    · rw [if_neg hc]
      have hpt : p.1 ≠ t' := fun hh => hc ((hcov p (List.mem_cons_self _ _)).mpr hh)
      have ih' := ih (fun q hq => hcov q (List.mem_cons_of_mem _ hq)) ?_
      · simpa only [emitByteArms] using ih'
      · obtain ⟨q, hq, hqt⟩ := hex
        rcases List.mem_cons.mp hq with hq | hq
        · subst hq
          exact absurd hqt hpt
        · exact ⟨q, hq, hqt⟩

theorem evalArms_transitions (regex : RegexDfa) (s : Nat) (states : List (Nat × State))
    (b : Nat) (hb : b < 256) :
    evalArms (emitByteArms states (buildTransitions regex s)) b =
      some (handlerFor states (regex.next_state s b)) := by
  obtain ⟨hnd, hent, htot⟩ := buildTransitions_spec regex s
  obtain ⟨bs', hlk', hbmem⟩ := htot b hb
  refine evalArms_emit_aux states b (regex.next_state s b) _ ?_ ?_
  · intro p hp
    have hplk := mem_alookup _ _ _ hnd hp
    obtain ⟨hne, hsort, hmem⟩ := hent p.1 p.2 hplk
    rw [bytepat_ranges_covers p.2 hsort hne b]
    constructor
    · intro hbp
      exact (hmem b hbp).2.symm
    · intro ht
      rw [ht] at hplk
      rw [hplk] at hlk'
      cases hlk'
      exact hbmem
  · exact ⟨(regex.next_state s b, bs'), alookup_mem _ _ _ hlk', rfl⟩

theorem evalOuter_mapped (all : List (Nat × State)) (id : Nat) :
    ∀ states : List (Nat × State),
      evalOuter ((states.map fun p => (StatePat.lit p.1, State.handle p.2 all)) ++
        [(StatePat.wildcard, StateBody.panicIndex)]) id =
      some (match alookup states id with
            | some st => State.handle st all
            | none => StateBody.panicIndex) := by
  intro states
  induction states with
  | nil => simp [evalOuter, alookup, StatePat.covers]
  | cons p rest ih =>
    simp only [List.map_cons, List.cons_append, evalOuter]
    by_cases h : p.1 = id
    · rw [if_pos (by simp [StatePat.covers, h])]
      simp [alookup, h]
    · rw [if_neg (by simp [StatePat.covers, h])]
      simp only [List.append_eq]
      rw [ih]
      simp only [alookup]
      rw [if_neg h]

theorem evalOuter_branches (dfa : Dfa) (id : Nat) :
    evalOuter dfa.branches id =
      some (match alookup dfa.states id with
            | some st => State.handle st dfa.states
            | none => StateBody.panicIndex) := by
  unfold Dfa.branches
  exact evalOuter_mapped dfa.states id dfa.states

/-! ### The emitted matcher against the automaton run -/

theorem matcherRun_scan (regex : RegexDfa) (fuel : Nat) (dfa : Dfa)
    (h : Dfa.from_regex regex fuel = some dfa) :
    ∀ input : List Nat, (∀ b ∈ input, b < 256) →
      ∀ s, containsKey dfa.states s = true →
        matcherRun dfa s input = some (scanMatch regex s input) := by
  obtain ⟨hst, hadd⟩ := from_regex_some regex fuel dfa h
  have hval := addStates_values regex _ _ _ _ hadd (by simp)
  have hnd := addStates_nodup regex _ _ _ _ hadd (by simp)
  have hcl := addStates_closed regex _ _ _ _ hadd (by simp)
  intro input
  induction input with
  | nil =>
    intro _ s _
    simp [matcherRun, scanMatch]
  | cons b rest ih =>
    intro hin s hs
    have hb : b < 256 := hin b (List.mem_cons_self _ _)
    have hin' : ∀ x ∈ rest, x < 256 := fun x hx => hin x (List.mem_cons_of_mem _ hx)
    cases hlk : alookup dfa.states s with
    | none =>
      rw [containsKey, hlk] at hs
      simp at hs
    | some st =>
      have hmem := alookup_mem _ _ _ hlk
      have hstv : st = State.from_regex regex s := hval _ hmem
      rw [show matcherRun dfa s (b :: rest) =
        (match evalOuter dfa.branches s with
         | none => none
         | some .retTrue => some true
         | some .retFalse => some false
         | some .panicIndex => none
         | some (.byteMatch arms) =>
           match evalArms arms b with
           | none => none
           | some .retTrue => some true
           | some .retFalse => some false
           | some (.goto t) => matcherRun dfa t rest) from rfl]
      rw [evalOuter_branches dfa s, hlk]
      cases hm : regex.is_match_state s with
      | true =>
        have : st = State.Match := by
          rw [hstv, State.from_regex, if_pos hm]
        subst this
        simp only [State.handle, scanMatch, hm]
        simp
      | false =>
        cases hd : regex.is_dead_state s with
        | true =>
          have : st = State.Dead := by
            rw [hstv, State.from_regex, if_neg (by simp [hm]), if_pos hd]
          subst this
          simp only [State.handle, scanMatch, hm, hd]
          simp
        | false =>
          have hts : st = State.Transitions (buildTransitions regex s) := by
            rw [hstv, State.from_regex, if_neg (by simp [hm]), if_neg (by simp [hd])]
          subst hts
          simp only [State.handle]
          rw [evalArms_transitions regex s dfa.states b hb]
          have htk : containsKey dfa.states (regex.next_state s b) = true := by
            refine hcl _ hmem (regex.next_state s b) ?_
            simp only [State.targets]
            obtain ⟨bs, hlkb, _⟩ := (buildTransitions_spec regex s).2.2 b hb
            exact List.mem_map.mpr ⟨_, alookup_mem _ _ _ hlkb, rfl⟩
          cases hlkt : alookup dfa.states (regex.next_state s b) with
          | none =>
            rw [containsKey, hlkt] at htk
            simp at htk
          | some stt =>
            have hsttv : stt = State.from_regex regex (regex.next_state s b) :=
              hval _ (alookup_mem _ _ _ hlkt)
            rw [show handlerFor dfa.states (regex.next_state s b) =
              (match alookup dfa.states (regex.next_state s b) with
               | some .Match => ArmHandler.retTrue
               | some .Dead => ArmHandler.retFalse
               | _ => ArmHandler.goto (regex.next_state s b)) from rfl, hlkt]
            cases hmt : regex.is_match_state (regex.next_state s b) with
            | true =>
              have : stt = State.Match := by
                rw [hsttv, State.from_regex, if_pos hmt]
              subst this
              simp only [scanMatch, hm, hd, hmt]
              simp
            | false =>
              cases hdt : regex.is_dead_state (regex.next_state s b) with
              | true =>
                have : stt = State.Dead := by
                  rw [hsttv, State.from_regex, if_neg (by simp [hmt]), if_pos hdt]
                subst this
                simp only [scanMatch, hm, hd, hmt, hdt]
                simp
              | false =>
                have : stt = State.Transitions (buildTransitions regex (regex.next_state s b)) := by
                  rw [hsttv, State.from_regex, if_neg (by simp [hmt]), if_neg (by simp [hdt])]
                subst this
                simp only [scanMatch, hm, hd, hmt, hdt]
                simp only [Bool.false_eq_true, if_false]
                exact ih hin' (regex.next_state s b) htk

/-! ### The automaton run and the engine verdict -/

theorem runDfa_nil (regex : RegexDfa) (s : Nat) : runDfa regex s [] = s := rfl

theorem runDfa_cons (regex : RegexDfa) (s b : Nat) (l : List Nat) :
    runDfa regex s (b :: l) = runDfa regex (regex.next_state s b) l := by
  simp [runDfa]

theorem dead_run (regex : RegexDfa)
    (hds : ∀ s b, regex.is_dead_state s = true →
      regex.is_dead_state (regex.next_state s b) = true) :
    ∀ (l : List Nat) (s : Nat), regex.is_dead_state s = true →
      regex.is_dead_state (runDfa regex s l) = true := by
  intro l
  induction l with
  | nil => intro s hs; exact hs
  | cons b rest ih =>
    intro s hs
    rw [runDfa_cons]
    exact ih _ (hds s b hs)

theorem exists_match_cons (regex : RegexDfa) (s b : Nat) (l : List Nat) :
    (∃ k, k ≤ l.length + 1 ∧
        regex.is_match_state (runDfa regex s ((b :: l).take k)) = true) ↔
      (regex.is_match_state s = true ∨
        ∃ j, j ≤ l.length ∧
          regex.is_match_state (runDfa regex (regex.next_state s b) (l.take j)) = true) := by
  constructor
  · rintro ⟨k, hk, hmk⟩
    cases k with
    | zero =>
      left
      simpa [runDfa] using hmk
    | succ j =>
      right
      refine ⟨j, by omega, ?_⟩
      rw [List.take_succ_cons, runDfa_cons] at hmk
      exact hmk
  · rintro (hm | ⟨j, hj, hmj⟩)
    · exact ⟨0, by omega, by simpa [runDfa] using hm⟩
    · refine ⟨j + 1, by omega, ?_⟩
      rw [List.take_succ_cons, runDfa_cons]
      exact hmj

theorem scanMatch_iff (regex : RegexDfa)
    (hds : ∀ s b, regex.is_dead_state s = true →
      regex.is_dead_state (regex.next_state s b) = true)
    (hdm : ∀ s, regex.is_dead_state s = true → regex.is_match_state s = false) :
    ∀ (l : List Nat) (b s : Nat),
      scanMatch regex s (b :: l) = true ↔
        ∃ k, k ≤ l.length + 1 ∧
          regex.is_match_state (runDfa regex s ((b :: l).take k)) = true := by
  intro l
  induction l with
  | nil =>
    intro b s
    rw [exists_match_cons]
    rw [show scanMatch regex s [b] =
        (if regex.is_match_state s = true then true
         else if regex.is_dead_state s = true then false
         else if regex.is_match_state (regex.next_state s b) = true then true
         else if regex.is_dead_state (regex.next_state s b) = true then false
         else scanMatch regex (regex.next_state s b) []) from rfl]
    rw [show scanMatch regex (regex.next_state s b) [] = false from rfl]
    by_cases hm : regex.is_match_state s = true
    · simp [hm]
    · rw [if_neg hm]
      by_cases hd : regex.is_dead_state s = true
      · rw [if_pos hd]
        have h1 : regex.is_match_state (regex.next_state s b) = false :=
          hdm _ (hds s b hd)
        constructor
        · intro h
          cases h
        · rintro (hm' | ⟨j, _, hmj⟩)
          · exact absurd hm' hm
          · rw [List.take_nil, runDfa_nil, h1] at hmj
            cases hmj
      · rw [if_neg hd]
        by_cases hmt : regex.is_match_state (regex.next_state s b) = true
        · rw [if_pos hmt]
          constructor
          · intro _
            exact Or.inr ⟨0, by omega, by simpa [runDfa] using hmt⟩
          · intro _
            rfl
        · rw [if_neg hmt]
          have hz : (if regex.is_dead_state (regex.next_state s b) = true then false
              else false) = false := by
            split <;> rfl
          rw [hz]
          constructor
          · intro h
            cases h
          · rintro (hm' | ⟨j, _, hmj⟩)
            · exact absurd hm' hm
            · rw [List.take_nil, runDfa_nil] at hmj
              exact absurd hmj hmt
  | cons c rest ih =>
    intro b s
    rw [exists_match_cons]
    rw [show scanMatch regex s (b :: c :: rest) =
        (if regex.is_match_state s = true then true
         else if regex.is_dead_state s = true then false
         else if regex.is_match_state (regex.next_state s b) = true then true
         else if regex.is_dead_state (regex.next_state s b) = true then false
         else scanMatch regex (regex.next_state s b) (c :: rest)) from rfl]
    by_cases hm : regex.is_match_state s = true
    · simp [hm]
    · rw [if_neg hm]
      by_cases hd : regex.is_dead_state s = true
      · rw [if_pos hd]
        have hdt := hds s b hd
        constructor
        · intro h
          cases h
        · rintro (hm' | ⟨j, _, hmj⟩)
          · exact absurd hm' hm
          · have hdr := dead_run regex hds (List.take j (c :: rest)) _ hdt
            rw [hdm _ hdr] at hmj
            cases hmj
      · rw [if_neg hd]
        by_cases hmt : regex.is_match_state (regex.next_state s b) = true
        · rw [if_pos hmt]
          constructor
          · intro _
            exact Or.inr ⟨0, by omega, by simpa [runDfa] using hmt⟩
          · intro _
            rfl
        · rw [if_neg hmt]
          by_cases hdt : regex.is_dead_state (regex.next_state s b) = true
          · rw [if_pos hdt]
            constructor
            · intro h
              cases h
            · rintro (hm' | ⟨j, _, hmj⟩)
              · exact absurd hm' hm
              · have hdr := dead_run regex hds (List.take j (c :: rest)) _ hdt
                rw [hdm _ hdr] at hmj
                cases hmj
          · rw [if_neg hdt]
            rw [ih c (regex.next_state s b)]
            constructor
            · rintro ⟨k, hk, hmk⟩
              exact Or.inr ⟨k, by simpa using hk, hmk⟩
            · rintro (hm' | ⟨j, hj, hmj⟩)
              · exact absurd hm' hm
              · exact ⟨j, by simpa using hj, hmj⟩

theorem engineMatch_iff (regex : RegexDfa) (input : List Nat) :
    engineMatch regex input = true ↔
      ∃ k, k ≤ input.length ∧
        regex.is_match_state (runDfa regex regex.start_state (input.take k)) = true := by
  unfold engineMatch
  rw [List.any_eq_true]
  constructor
  · rintro ⟨k, hk, hmk⟩
    rw [List.mem_range] at hk
    exact ⟨k, by omega, hmk⟩
  · rintro ⟨k, hk, hmk⟩
    exact ⟨k, List.mem_range.mpr (by omega), hmk⟩

theorem handle_eq_engine (regex : RegexDfa) (fuel : Nat) (dfa : Dfa)
    (hds : ∀ s b, regex.is_dead_state s = true →
      regex.is_dead_state (regex.next_state s b) = true)
    (hdm : ∀ s, regex.is_dead_state s = true → regex.is_match_state s = false)
    (h : Dfa.from_regex regex fuel = some dfa)
    (input : List Nat) (hin : ∀ b ∈ input, b < 256) (hne : input ≠ []) :
    Dfa.handle dfa input = some (engineMatch regex input) := by
  obtain ⟨hst, hadd⟩ := from_regex_some regex fuel dfa h
  have hstart : containsKey dfa.states regex.start_state = true :=
    addStates_pending_keys regex _ _ _ _ hadd _ (List.mem_cons_self _ _)
  cases input with
  | nil => exact absurd rfl hne
  | cons b rest =>
    rw [Dfa.handle, hst, matcherRun_scan regex fuel dfa h _ hin _ hstart]
    congr 1
    have h1 := scanMatch_iff regex hds hdm rest b regex.start_state
    have h2 := engineMatch_iff regex (b :: rest)
    have h3 : scanMatch regex regex.start_state (b :: rest) = true ↔
        engineMatch regex (b :: rest) = true := by
      rw [h1, h2]
      constructor
      · rintro ⟨k, hk, hmk⟩
        exact ⟨k, by simpa using hk, hmk⟩
      · rintro ⟨k, hk, hmk⟩
        exact ⟨k, by simpa using hk, hmk⟩
    cases hb1 : scanMatch regex regex.start_state (b :: rest) with
    | true => exact (h3.mp hb1).symm
    | false =>
      cases hb2 : engineMatch regex (b :: rest) with
      | true =>
        rw [h3.mpr hb2] at hb1
        cases hb1
      | false => rfl

/-! ### Fall-through behaviour of the emitted loop -/

theorem fallsThrough_false (dfa : Dfa) :
    ∀ (input : List Nat) (s : Nat), matcherFallsThrough dfa s input = true →
      matcherRun dfa s input = some false := by
  intro input
  induction input with
  | nil =>
    intro s _
    rfl
  | cons b rest ih =>
    intro s h
    simp only [matcherFallsThrough] at h
    simp only [matcherRun]
    cases ho : evalOuter dfa.branches s with
    | none =>
      rw [ho] at h
      cases h
    | some body =>
      rw [ho] at h
      cases body with
      | retTrue => cases h
      | retFalse => cases h
      | panicIndex => cases h
      | byteMatch arms =>
        simp only at h ⊢
        cases ha : evalArms arms b with
        | none =>
          rw [ha] at h
          cases h
        | some hd =>
          rw [ha] at h
          cases hd with
          | retTrue => cases h
          | retFalse => cases h
          | goto t =>
            simp only at h ⊢
            exact ih t h

theorem evalArms_isSome_mem (l : List ByteArm) (b : Nat) :
    ∀ h, evalArms l b = some h → ∃ arm ∈ l, arm.pat.covers b = true := by
  induction l with
  | nil =>
    intro h hh
    simp [evalArms] at hh
  | cons arm rest ih =>
    intro h hh
    simp only [evalArms] at hh
    by_cases hc : arm.pat.covers b = true
    · exact ⟨arm, List.mem_cons_self _ _, hc⟩
    · rw [if_neg hc] at hh
      obtain ⟨a, ha, hac⟩ := ih h hh
      exact ⟨a, List.mem_cons_of_mem _ ha, hac⟩

/-! ### Claims -/

/-- C2: for every finite non-empty set of byte values (given as its
strictly ascending list of elements, the iteration order of the `BTreeSet`
in `State::handle`), the coalescing loop produces inclusive ranges that are
well-formed (`start ≤ end`), pairwise in strictly ascending order and
separated by a gap of at least one byte (hence pairwise disjoint, sorted
ascending, and maximal: no two adjacent output ranges can be merged), and
whose union is exactly the input set. -/
theorem c2_coalesce_correct (l : List Nat) (hne : l ≠ [])
    (hsort : List.Sorted (· < ·) l) (_hbytes : ∀ b ∈ l, b < 256) :
    (∀ r ∈ coalesce l, r.1 ≤ r.2) ∧
    List.Pairwise (fun r1 r2 : Nat × Nat => r1.2 + 1 < r2.1) (coalesce l) ∧
    (∀ b : Nat, (∃ r ∈ coalesce l, r.1 ≤ b ∧ b ≤ r.2) ↔ b ∈ l) := by
  obtain ⟨_, h1, h2, h3⟩ := coalesce_spec l hne hsort
  exact ⟨h1, h2, h3⟩

/-- Witness for C2 at the concrete byte set `{1, 2, 3, 7}`. -/
theorem c2_coalesce_correct_witness :
    (([1, 2, 3, 7] : List Nat) ≠ [] ∧
      List.Sorted (· < ·) ([1, 2, 3, 7] : List Nat) ∧
      (∀ b ∈ ([1, 2, 3, 7] : List Nat), b < 256)) ∧
    ((∀ r ∈ coalesce [1, 2, 3, 7], r.1 ≤ r.2) ∧
     List.Pairwise (fun r1 r2 : Nat × Nat => r1.2 + 1 < r2.1) (coalesce [1, 2, 3, 7]) ∧
     (∀ b : Nat, (∃ r ∈ coalesce [1, 2, 3, 7], r.1 ≤ b ∧ b ≤ r.2) ↔
        b ∈ ([1, 2, 3, 7] : List Nat))) :=
  ⟨⟨by decide, by decide, by decide⟩,
    c2_coalesce_correct [1, 2, 3, 7] (by decide) (by decide) (by decide)⟩

/-- C3: for every state classified as `Transitions` by `State::from_regex`,
the transition map has no duplicate target keys, every entry's byte set is
non-empty, and every byte value 0–255 lies in exactly one entry's byte set
(the map is a total, non-overlapping cover of the byte alphabet). -/
theorem c3_transitions_total (regex : RegexDfa) (s : Nat) (ts : List (Nat × List Nat))
    (h : State.from_regex regex s = State.Transitions ts) :
    ((ts.map Prod.fst).Nodup) ∧
    (∀ p ∈ ts, p.2 ≠ []) ∧
    (∀ b, b < 256 → ∃! p : Nat × List Nat, p ∈ ts ∧ b ∈ p.2) := by
  obtain ⟨_, _, hts⟩ := from_regex_transitions regex s ts h
  rw [hts]
  obtain ⟨hnd, hent, htot⟩ := buildTransitions_spec regex s
  refine ⟨hnd, ?_, ?_⟩
  · intro p hp
    exact (hent p.1 p.2 (mem_alookup _ _ _ hnd hp)).1
  · intro b hb
    obtain ⟨bs, hlk, hmem⟩ := htot b hb
    refine ⟨(regex.next_state s b, bs), ⟨alookup_mem _ _ _ hlk, hmem⟩, ?_⟩
    rintro ⟨t', bs'⟩ ⟨hmem', hb'⟩
    have hlk' := mem_alookup _ _ _ hnd hmem'
    have ht' := ((hent t' bs' hlk').2.2 b hb').2
    subst ht'
    rw [hlk] at hlk'
    cases hlk'
    rfl

/-- Witness for C3 at state 0 of the pattern-`"a"` automaton model. -/
theorem c3_transitions_total_witness :
    State.from_regex aRegex 0 = State.Transitions (buildTransitions aRegex 0) ∧
    (((buildTransitions aRegex 0).map Prod.fst).Nodup ∧
     (∀ p ∈ buildTransitions aRegex 0, p.2 ≠ []) ∧
     (∀ b, b < 256 →
       ∃! p : Nat × List Nat, p ∈ buildTransitions aRegex 0 ∧ b ∈ p.2)) :=
  ⟨rfl, c3_transitions_total aRegex 0 _ rfl⟩

/-- C4: for every state graph constructed by `Dfa::from_regex`, every state
id appearing as a transition target in any `Transitions` map is itself a
key of the states map (no dangling state references). -/
theorem c4_graph_closed (regex : RegexDfa) (fuel : Nat) (dfa : Dfa)
    (h : Dfa.from_regex regex fuel = some dfa) :
    ∀ p ∈ dfa.states, ∀ t ∈ State.targets p.2, containsKey dfa.states t = true := by
  obtain ⟨_, hadd⟩ := from_regex_some regex fuel dfa h
  exact addStates_closed regex _ _ _ _ hadd (by simp)

/-- Witness for C4 on the pattern-`"a"` automaton model. -/
theorem c4_graph_closed_witness :
    Dfa.from_regex aRegex 4 = some aGraph ∧
      (∀ p ∈ aGraph.states, ∀ t ∈ State.targets p.2,
        containsKey aGraph.states t = true) :=
  ⟨rfl, c4_graph_closed aRegex 4 aGraph rfl⟩

/-- C5: on every automaton with finitely many states (`n` bounds the state
ids the transition function can produce from reachable ids), the
extraction starting from the start state terminates — fuel linear in `n`
suffices, cycles included, because presence in the states map guards every
revisit — and the resulting map classifies each id reachable from the
start exactly once: its keys are duplicate-free and are exactly the
reachable state ids. -/
theorem c5_extraction_terminates (regex : RegexDfa) (n : Nat)
    (hstart : regex.start_state < n)
    (hnext : ∀ s, s < n → ∀ b, b < 256 → regex.next_state s b < n) :
    ∃ states, addStatesAux regex (257 * n + 1) [regex.start_state] [] = some states ∧
      ((states.map Prod.fst).Nodup) ∧
      (∀ id, containsKey states id = true ↔ Reachable regex id) := by
  have hsome := addStates_some regex n hnext (257 * n + 1) [regex.start_state] []
    (by
      intro i hi
      simp only [List.mem_singleton] at hi
      subst hi
      exact hstart)
    (by simp) (by simp)
    (by
      simp only [List.length_cons, List.length_nil, List.map_nil]
      omega)
  cases hadd : addStatesAux regex (257 * n + 1) [regex.start_state] [] with
  | none =>
    rw [hadd] at hsome
    simp at hsome
  | some states =>
    refine ⟨states, rfl, addStates_nodup regex _ _ _ _ hadd (by simp), ?_⟩
    intro id
    constructor
    · intro hck
      have hr := addStates_keys_reachable regex _ _ _ _ hadd
        (by
          intro i hi
          simp only [List.mem_singleton] at hi
          subst hi
          exact Reachable.start)
        (by simp)
      cases hlk : alookup states id with
      | none =>
        rw [containsKey, hlk] at hck
        simp at hck
      | some v => exact hr (id, v) (alookup_mem _ _ _ hlk)
    · intro hre
      exact reachable_keys regex states
        (addStates_pending_keys regex _ _ _ _ hadd _ (List.mem_cons_self _ _))
        (addStates_values regex _ _ _ _ hadd (by simp))
        (addStates_closed regex _ _ _ _ hadd (by simp))
        id hre

/-- Witness for C5 on the pattern-`"a"` automaton model, which contains a
self-loop on state 0 and a sink loop on state 1. -/
theorem c5_extraction_terminates_witness :
    (aRegex.start_state < 2 ∧
      (∀ s, s < 2 → ∀ b, b < 256 → aRegex.next_state s b < 2)) ∧
    (∃ states, addStatesAux aRegex (257 * 2 + 1) [aRegex.start_state] [] = some states ∧
      ((states.map Prod.fst).Nodup) ∧
      (∀ id, containsKey states id = true ↔ Reachable aRegex id)) :=
  ⟨⟨by decide, by decide⟩, c5_extraction_terminates aRegex 2 (by decide) (by decide)⟩

/-- C6: whenever the emitted matcher's loop consumes its whole input with
no early return (every step takes a plain state-to-state transition), the
matcher returns `false`; in particular it returns `false` on empty input,
as the witness instantiates for the pattern-`"a"` automaton. -/
theorem c6_fallthrough_false (dfa : Dfa) (input : List Nat)
    (h : matcherFallsThrough dfa dfa.start input = true) :
    Dfa.handle dfa input = some false :=
  fallsThrough_false dfa input dfa.start h

/-- Witness for C6: the pattern-`"a"` matcher on the empty input. -/
theorem c6_fallthrough_false_witness :
    matcherFallsThrough aGraph aGraph.start [] = true ∧
      Dfa.handle aGraph [] = some false :=
  ⟨rfl, c6_fallthrough_false aGraph [] rfl⟩

/-- C7: `build_dfa` recognizes an optional leading `'^'`: when present it
strips exactly that first character and configures the backend in anchored
mode, otherwise it passes the pattern unchanged in unanchored mode; the
remaining builder options are fixed (`byte_classes false`,
`premultiply false`, `minimize true`). -/
theorem c7_build_dfa_anchor (cs : List Char) :
    build_dfa_config cs =
      if cs.head? = some '^' then
        { byte_classes := false, premultiply := false, minimize := true,
          anchored := true, pattern := cs.tail }
      else
        { byte_classes := false, premultiply := false, minimize := true,
          anchored := false, pattern := cs } := by
  cases cs with
  | nil => simp [build_dfa_config, stripCaret]
  | cons c rest =>
    by_cases h : c = '^'
    · subst h
      simp [build_dfa_config, stripCaret]
    · simp [build_dfa_config, stripCaret, h]

/-- C1 counterexample: for an automaton whose regex accepts the empty
string (start state is a match state, e.g. pattern `"a*"`), the pipeline's
emitted matcher returns `false` on the empty input while the backing
engine's verdict on the same input is `true` — so the matcher does not
agree with the engine on every pattern and input. -/
theorem c1_counterexample_empty_input :
    Dfa.from_regex epsRegex 2 = some epsGraph ∧
    epsRegex.is_match_state epsRegex.start_state = true ∧
    Dfa.handle epsGraph [] = some false ∧
    engineMatch epsRegex [] = true :=
  ⟨rfl, rfl, rfl, rfl⟩

/-- C1 (amended): for every backend automaton in which dead states are
match-free sinks, every extracted graph and every byte input, the emitted
matcher agrees with the backing engine's verdict whenever the input is
non-empty; on the empty input the matcher returns `false` regardless of
the engine (the divergence exhibited by the counterexample). -/
theorem c1_matcher_agrees_with_engine (regex : RegexDfa) (fuel : Nat) (dfa : Dfa)
    (hds : ∀ s b, regex.is_dead_state s = true →
      regex.is_dead_state (regex.next_state s b) = true)
    (hdm : ∀ s, regex.is_dead_state s = true → regex.is_match_state s = false)
    (h : Dfa.from_regex regex fuel = some dfa)
    (input : List Nat) (hin : ∀ b ∈ input, b < 256) (hne : input ≠ []) :
    Dfa.handle dfa input = some (engineMatch regex input) :=
  handle_eq_engine regex fuel dfa hds hdm h input hin hne

/-- Witness for C1 (amended) on the pattern-`"a"` automaton model with the
single-byte input `"b"`. -/
theorem c1_matcher_agrees_with_engine_witness :
    Dfa.from_regex aRegex 4 = some aGraph ∧
      Dfa.handle aGraph [98] = some (engineMatch aRegex [98]) :=
  ⟨rfl,
    c1_matcher_agrees_with_engine aRegex 4 aGraph
      (fun s b hd => by simp [aRegex] at hd)
      (fun s hd => by simp [aRegex] at hd)
      rfl [98] (by decide) (by decide)⟩

/-- C8 counterexample: state 0 of the pattern-`"a"` automaton is classified
`Transitions`, and the per-byte dispatch emitted for it consists solely of
range arms — it carries no catch-all (wildcard) arm at all, contrary to the
claim that every such dispatch carries an explicit cannot-happen catch-all
arm. -/
theorem c8_counterexample_no_inner_catchall :
    State.from_regex aRegex 0 = State.Transitions (buildTransitions aRegex 0) ∧
    State.handle (State.from_regex aRegex 0) aGraph.states =
      StateBody.byteMatch aGraphArms ∧
    (∀ arm ∈ aGraphArms, arm.pat ≠ BytePat.wildcard) :=
  ⟨rfl, rfl, by decide⟩

/-- C8 (amended): in the emitted matcher of every extracted graph, the
per-byte dispatch of every `Transitions` state carries no catch-all arm —
it is exhaustive by construction, every byte 0–255 being covered by some
range arm — while the outer state-id dispatch ends in the explicit
cannot-happen catch-all arm (`_ => [][0]`), and that panic arm is never
executed on any byte input: the matcher always returns a boolean. -/
theorem c8_dispatch_exhaustive (regex : RegexDfa) (fuel : Nat) (dfa : Dfa)
    (h : Dfa.from_regex regex fuel = some dfa) :
    (∀ p ∈ dfa.states, ∀ arms,
      State.handle p.2 dfa.states = StateBody.byteMatch arms →
      (∀ arm ∈ arms, arm.pat ≠ BytePat.wildcard) ∧
      (∀ b, b < 256 → ∃ arm ∈ arms, arm.pat.covers b = true)) ∧
    (dfa.branches.getLast? = some (StatePat.wildcard, StateBody.panicIndex)) ∧
    (∀ input : List Nat, (∀ b ∈ input, b < 256) →
      (Dfa.handle dfa input).isSome = true) := by
  obtain ⟨hst, hadd⟩ := from_regex_some regex fuel dfa h
  have hval := addStates_values regex _ _ _ _ hadd (by simp)
  refine ⟨?_, ?_, ?_⟩
  · intro p hp arms harm
    have hv := hval p hp
    cases hpv : p.2 with
    | Match =>
      rw [hpv] at harm
      simp [State.handle] at harm
    | Dead =>
      rw [hpv] at harm
      simp [State.handle] at harm
    | Transitions ts =>
      rw [hpv] at harm
      simp only [State.handle, StateBody.byteMatch.injEq] at harm
      rw [hpv] at hv
      have hts := (from_regex_transitions regex p.1 ts hv.symm).2.2
      constructor
      · intro arm harm'
        rw [← harm] at harm'
        simp only [emitByteArms] at harm'
        obtain ⟨q, _, hq⟩ := List.mem_map.mp harm'
        rw [← hq]
        simp
      · intro b hb
        have he := evalArms_transitions regex p.1 dfa.states b hb
        rw [← hts] at he
        rw [harm] at he
        exact evalArms_isSome_mem arms b _ he
  · unfold Dfa.branches
    exact List.getLast?_concat _
  · intro input hin
    cases input with
    | nil => rfl
    | cons b rest =>
      have hstart : containsKey dfa.states regex.start_state = true :=
        addStates_pending_keys regex _ _ _ _ hadd _ (List.mem_cons_self _ _)
      rw [Dfa.handle, hst,
        matcherRun_scan regex fuel dfa h _ hin _ hstart]
      rfl

/-- Witness for C8 (amended) on the pattern-`"a"` automaton model. -/
theorem c8_dispatch_exhaustive_witness :
    Dfa.from_regex aRegex 4 = some aGraph ∧
    ((∀ p ∈ aGraph.states, ∀ arms,
        State.handle p.2 aGraph.states = StateBody.byteMatch arms →
        (∀ arm ∈ arms, arm.pat ≠ BytePat.wildcard) ∧
        (∀ b, b < 256 → ∃ arm ∈ arms, arm.pat.covers b = true)) ∧
      (aGraph.branches.getLast? = some (StatePat.wildcard, StateBody.panicIndex)) ∧
      (∀ input : List Nat, (∀ b ∈ input, b < 256) →
        (Dfa.handle aGraph input).isSome = true)) :=
  ⟨rfl, c8_dispatch_exhaustive aRegex 4 aGraph rfl⟩

/-- C9 counterexample: when the backend returns a non-`Standard`
representation, the abort message is the fixed `unreachable!()` text, which
is identical for the distinct patterns `"abc"` and `"xyz"` — a message that
cannot identify the offending pattern. -/
theorem c9_counterexample_message_lacks_pattern :
    build_dfa (fun _ => Except.ok DenseDFA.NonStandard) "abc".toList =
      BuildResult.panicked unreachableMsg ∧
    build_dfa (fun _ => Except.ok DenseDFA.NonStandard) "xyz".toList =
      BuildResult.panicked unreachableMsg ∧
    "abc".toList ≠ "xyz".toList :=
  ⟨rfl, rfl, by decide⟩

/-- C9 (amended): if the backend builder fails on the pattern, `build_dfa`
aborts carrying the `.unwrap()` panic message with the backend's error text
appended verbatim; if the backend returns a representation other than the
dense standard table, `build_dfa` aborts with the fixed
`internal error: entered unreachable code` message (which does not name the
pattern); and in either case no DFA is produced — a DFA results only from a
successful `Standard` build. -/
theorem c9_failure_aborts (backend : BuilderConfig → Except (List Char) DenseDFA)
    (cs : List Char) :
    (∀ e, backend (build_dfa_config cs) = Except.error e →
      build_dfa backend cs = BuildResult.panicked (unwrapPre ++ e)) ∧
    (backend (build_dfa_config cs) = Except.ok DenseDFA.NonStandard →
      build_dfa backend cs = BuildResult.panicked unreachableMsg) ∧
    (∀ d, build_dfa backend cs = BuildResult.ok d →
      backend (build_dfa_config cs) = Except.ok (DenseDFA.Standard d)) := by
  refine ⟨?_, ?_, ?_⟩
  · intro e he
    unfold build_dfa
    rw [he]
  · intro he
    unfold build_dfa
    rw [he]
  · intro d hd
    unfold build_dfa at hd
    cases hb : backend (build_dfa_config cs) with
    | error e =>
      rw [hb] at hd
      cases hd
    | ok v =>
      cases v with
      | Standard d0 =>
        rw [hb] at hd
        cases hd
        rfl
      | NonStandard =>
        rw [hb] at hd
        cases hd

/-- Witness for C9 (amended) with a failing backend and a non-`Standard`
backend on the pattern `"a"`. -/
theorem c9_failure_aborts_witness :
    build_dfa (fun _ => Except.error ['E']) ['a'] =
      BuildResult.panicked (unwrapPre ++ ['E']) ∧
    build_dfa (fun _ => Except.ok DenseDFA.NonStandard) ['a'] =
      BuildResult.panicked unreachableMsg :=
  ⟨(c9_failure_aborts (fun _ => Except.error ['E']) ['a']).1 ['E'] rfl,
    (c9_failure_aborts (fun _ => Except.ok DenseDFA.NonStandard) ['a']).2.1 rfl⟩

/-- C10: the emitted matcher returns `false` on the empty input for every
state graph — even when the start state is classified `Match` (the
compiled regex accepts the empty string), because state classifications
are consulted only inside the byte-consuming loop, which never runs on
empty input; the second conjunct exhibits this on an automaton whose start
state is a match state. -/
theorem c10_empty_input_false :
    (∀ dfa : Dfa, Dfa.handle dfa [] = some false) ∧
    (Dfa.from_regex epsRegex 2 = some epsGraph ∧
      alookup epsGraph.states epsGraph.start = some State.Match ∧
      epsRegex.is_match_state epsRegex.start_state = true ∧
      Dfa.handle epsGraph [] = some false) :=
  ⟨fun _ => rfl, rfl, rfl, rfl, rfl⟩

end ConstRegex
